import Mathlib

/-!
Verification of the extension lifecycle manager (`bot/exts/utils/extensions.py`)
and the Twemoji codepoint helpers (`bot/exts/twemoji/twemoji.py`) of the
branding-bot repository, as a shallow embedding in Lean.

The bot framework (disnake) that owns the extension table is an external
collaborator of the repository; it is modelled here, following the spec's
description of the host contract, as an explicit state (`Host`) holding the
set of currently loaded extensions, a per-extension setup behaviour, and a
log of the host operations that have been invoked.
-/

namespace BrandingBot

/-- The three extension-management actions (`class Action(Enum)` in the source),
each bound to the corresponding host operation. -/
inductive Action where
  | LOAD
  | UNLOAD
  | RELOAD
deriving DecidableEq, Repr

/-- `action.name.lower()` — the verb used in user-facing messages. -/
def Action.verb : Action → String
  | .LOAD => "load"
  | .UNLOAD => "unload"
  | .RELOAD => "reload"

/-- A Python exception value as observed by `manage`: its class name, its
`str()` rendering, and, when the exception wraps another (`hasattr(e,
"original")`, as disnake's `ExtensionFailed` does), the class name and
message of the wrapped cause. -/
structure PyExc where
  cls : String
  msg : String
  original : Option (String × String)
deriving DecidableEq, Repr

/-- The outcomes a host operation can signal, mirroring the exceptions that
`manage` distinguishes: `commands.ExtensionAlreadyLoaded`,
`commands.ExtensionNotLoaded`, or any other exception. -/
inductive HostErr where
  | alreadyLoaded
  | notLoaded
  | exc (e : PyExc)
deriving DecidableEq, Repr

/-- Modelled from the spec: the host runtime's extension table (spec section 3:
"State is owned and mutated exclusively by the host runtime") together with the
behaviour of each extension's setup code. `loaded` is the current extension
table (`self.bot.extensions.keys()`), `setupExc` says whether executing a given
extension's setup raises (it may depend on the currently loaded extensions),
and `log` records every host operation invoked, in order. -/
structure Host where
  loaded : List String
  setupExc : List String → String → Option PyExc
  log : List (Action × String)

/-- Modelled from the spec: `Bot.load_extension`. Raises `ExtensionAlreadyLoaded`
when the extension is in the table; otherwise runs its setup, which either
raises or registers the extension. -/
def Host.loadOp (h : Host) (ext : String) : Host × Option HostErr :=
  let h1 : Host := { h with log := h.log ++ [(Action.LOAD, ext)] }
  if ext ∈ h1.loaded then (h1, some HostErr.alreadyLoaded)
  else
    match h1.setupExc h1.loaded ext with
    | some e => (h1, some (HostErr.exc e))
    | none => ({ h1 with loaded := h1.loaded ++ [ext] }, none)

/-- Modelled from the spec: `Bot.unload_extension`. Raises `ExtensionNotLoaded`
when the extension is not in the table; otherwise removes it. -/
def Host.unloadOp (h : Host) (ext : String) : Host × Option HostErr :=
  let h1 : Host := { h with log := h.log ++ [(Action.UNLOAD, ext)] }
  if ext ∈ h1.loaded then ({ h1 with loaded := h1.loaded.erase ext }, none)
  else (h1, some HostErr.notLoaded)

/-- Modelled from the spec: `Bot.reload_extension`. Raises `ExtensionNotLoaded`
when the extension is not in the table; otherwise re-runs its setup, rolling
back to the previous state (table unchanged) when the setup raises. -/
def Host.reloadOp (h : Host) (ext : String) : Host × Option HostErr :=
  let h1 : Host := { h with log := h.log ++ [(Action.RELOAD, ext)] }
  if ext ∈ h1.loaded then
    match h1.setupExc h1.loaded ext with
    | some e => (h1, some (HostErr.exc e))
    | none => (h1, none)
  else (h1, some HostErr.notLoaded)

/-- `action.value(self.bot, ext)` — dispatch an action to its host operation. -/
def applyAction (h : Host) (a : Action) (ext : String) : Host × Option HostErr :=
  match a with
  | .LOAD => h.loadOp ext
  | .UNLOAD => h.unloadOp ext
  | .RELOAD => h.reloadOp ext

/-- `if hasattr(e, "original"): e = e.original` — the class/message pair used
to format a failure, taken from the wrapped cause when there is one. -/
def unwrapOriginal (e : PyExc) : String × String :=
  match e.original with
  | some p => p
  | none => (e.cls, e.msg)

/-- The failure result branch of `manage` (`except Exception as e`). -/
def failResult (verb ext : String) (h : Host) (e : PyExc) :
    Host × String × Option String :=
  let p := unwrapOriginal e
  let c := p.1
  let m := p.2
  let error_msg := s!"{c}: {m}"
  (h, s!"Failed to {verb} extension `{ext}`:\n```\n{error_msg}```", some error_msg)

/-- `manage` restricted to not performing the reload-to-load fallback; used to
express the (at most one level deep) recursion of `manage` structurally. For
`Action.LOAD` — the only action `manage` ever recurses with — this agrees with
`manage` itself, since the fallback branch is guarded by `action is
Action.RELOAD`. -/
def manageNoFallback (h : Host) (a : Action) (ext : String) :
    Host × String × Option String :=
  let verb := a.verb
  match applyAction h a ext with
  | (h1, none) => (h1, s!"Extension successfully {verb}ed: `{ext}`.", none)
  | (h1, some HostErr.alreadyLoaded) | (h1, some HostErr.notLoaded) =>
    (h1, s!"Extension `{ext}` is already {verb}ed.", none)
  | (h1, some (HostErr.exc e)) => failResult verb ext h1 e

/-- `Extensions.manage`: apply an action to an extension and return the status
message and any error message (together with the updated host state). When
reloading an extension that is not loaded, it retries as a plain load. -/
def manage (h : Host) (a : Action) (ext : String) : Host × String × Option String :=
  let verb := a.verb
  match applyAction h a ext with
  | (h1, none) => (h1, s!"Extension successfully {verb}ed: `{ext}`.", none)
  | (h1, some HostErr.alreadyLoaded) | (h1, some HostErr.notLoaded) =>
    if a = Action.RELOAD then manageNoFallback h1 Action.LOAD ext
    else (h1, s!"Extension `{ext}` is already {verb}ed.", none)
  | (h1, some (HostErr.exc e)) => failResult verb ext h1 e

/-- Python `dict` insertion for the `failures` dictionary of `batch_manage`:
an existing key keeps its position and gets the new value, a new key is
appended. -/
def dictInsert (d : List (String × String)) (k v : String) : List (String × String) :=
  if d.any (fun p => p.1 == k) then
    d.map fun p => if p.1 = k then (p.1, v) else p
  else d ++ [(k, v)]

/-- The `for extension in extensions` loop of `batch_manage`: apply `manage` to
every extension in input order, threading the host state and collecting the
failures dictionary. -/
def batchLoop (a : Action) : Host → List String → List (String × String) →
    Host × List (String × String)
  | h, [], failures => (h, failures)
  | h, ext :: rest, failures =>
    let r := manage h a ext
    match r.2.2 with
    | some error => batchLoop a r.1 rest (dictInsert failures ext error)
    | none => batchLoop a r.1 rest failures

/-- Python `"sep".join(strs)`. -/
def joinSep (sep : String) : List String → String
  | [] => ""
  | x :: xs => xs.foldl (fun acc s => acc ++ sep ++ s) x

/-- `Extensions.batch_manage`: apply an action to multiple extensions and
return a message with the results together with the error flag. A single
extension is deferred to `manage`. -/
def batch_manage (h : Host) (a : Action) (extensions : List String) :
    Host × String × Bool :=
  match extensions with
  | [ext] =>
    let r := manage h a ext
    (r.1, r.2.1, r.2.2.isSome)
  | _ =>
    let verb := a.verb
    let r := batchLoop a h extensions []
    let failures := r.2
    let n := extensions.length
    let k := n - failures.length
    let msg := s!"{k} / {n} extensions {verb}ed."
    if failures.isEmpty then (r.1, msg, false)
    else
      let block := joinSep "\n" (failures.map fun q =>
        let e := q.1
        let err := q.2
        s!"{e}\n    {err}")
      (r.1, msg ++ s!"\n\n**Failures:**```\n{block}```", true)

/-- Modelled from the spec: `bot.exts.__name__`, the name of the extensions
package (its source is not part of the analysed files). -/
def extsModuleName : String := "bot.exts"

/-- `UNLOAD_BLACKLIST`: the denylist of extensions that must never be
unloaded. -/
def UNLOAD_BLACKLIST : List String := [extsModuleName ++ ".utils.extensions"]

/-- `Extensions.unload_command` (transport layer stripped): returns the updated
host and, unless the invocation only displayed help (empty argument list), the
message and error flag of the embed that is sent. The wildcard expansion
`set(self.bot.extensions.keys()) - UNLOAD_BLACKLIST` is rendered as a filter
over the loaded list (the Python set iteration order is unspecified; no claim
depends on it). -/
def unload_command (h : Host) (extensions : List String) :
    Host × Option (String × Bool) :=
  if extensions = [] then (h, none)
  else
    let inter := UNLOAD_BLACKLIST.filter fun b => decide (b ∈ extensions)
    let blacklisted := joinSep "\n" inter
    if blacklisted ≠ "" then
      (h, some (s!"The following extension(s) may not be unloaded:```\n{blacklisted}```", true))
    else
      let exts :=
        if "*" ∈ extensions ∨ "**" ∈ extensions then
          h.loaded.filter fun e => decide (e ∉ UNLOAD_BLACKLIST)
        else extensions
      let r := batch_manage h Action.UNLOAD exts
      (r.1, some (r.2.1, r.2.2))

/-- Python `s.split(".")`: splits at every dot, keeping empty pieces. Own
structural model of the Python builtin (argument list is the reversed
accumulator of the current piece). -/
def splitDotAux : List Char → List Char → List String
  | [], acc => [String.mk acc.reverse]
  | c :: cs, acc =>
    if c = '.' then String.mk acc.reverse :: splitDotAux cs []
    else splitDotAux cs (c :: acc)

/-- Python `ext.split(".")`. -/
def pySplitDot (s : String) : List String := splitDotAux s.toList []

/-- `BASE_PATH_LEN = len(exts.__name__.split("."))`. -/
def BASE_PATH_LEN : Nat := (pySplitDot extsModuleName).length

/-- Modelled from the spec: `Emojis.status_online` from `bot.constants` (not
among the analysed files); the exact string is irrelevant to every claim. -/
def status_online : String := "🟢"

/-- Modelled from the spec: `Emojis.status_offline` from `bot.constants` (not
among the analysed files); the exact string is irrelevant to every claim. -/
def status_offline : String := "⚫"

/-- The category an extension is grouped under in `group_extension_statuses`:
the path segments after the fixed root prefix and excluding the last one,
joined by `" - "`, when more than one segment remains; else `uncategorised`. -/
def categoryOf (ext : String) : String :=
  let path := pySplitDot ext
  if path.length > BASE_PATH_LEN + 1 then
    joinSep " - " ((path.drop BASE_PATH_LEN).dropLast)
  else "uncategorised"

/-- The `f"{status}  {path[-1]}"` line built for an extension in
`group_extension_statuses`: its status marker (a function of membership in the
loaded set only) followed by the last path segment. -/
def entryOf (loaded : List String) (ext : String) : String :=
  let status := if ext ∈ loaded then status_online else status_offline
  s!"{status}  " ++ (pySplitDot ext).getLastD ""

/-- `categories.setdefault(category, []).append(entry)` over an ordered
association list: append to the existing bucket, else add a new bucket at the
end. -/
def addEntry (cats : List (String × List String)) (cat entry : String) :
    List (String × List String) :=
  if cats.any (fun p => p.1 == cat) then
    cats.map fun p => if p.1 = cat then (p.1, p.2 ++ [entry]) else p
  else cats ++ [(cat, [entry])]

/-- `Extensions.group_extension_statuses`: the mapping from categories to
status lines, built over the known extensions (`EXTENSIONS`, passed here as a
parameter since its enumeration is produced at process start) and the host's
loaded set (`self.bot.extensions`). -/
def group_extension_statuses (extsList loaded : List String) :
    List (String × List String) :=
  extsList.foldl (fun cats ext => addEntry cats (categoryOf ext) (entryOf loaded ext)) []

/-- The Python error kinds relevant to `codepoint_from_input`: `ValueError`
(raised explicitly, and by `chr` on an out-of-range codepoint) and
`IndexError` (raised by `emoji_list[0]` on an empty list). -/
inductive PyError where
  | valueError
  | indexError
deriving DecidableEq, Repr

/-- A character of the regex class `[a-f0-9]`. -/
def hexDigitOk (c : Char) : Bool :=
  decide (('a' ≤ c ∧ c ≤ 'f') ∨ ('0' ≤ c ∧ c ≤ '9'))

/-- A character of the regex class `[a-f1-9]` (first character of `CODE`). -/
def firstDigitOk (c : Char) : Bool :=
  decide (('a' ≤ c ∧ c ≤ 'f') ∨ ('1' ≤ c ∧ c ≤ '9'))

/-- Whether Python's `$` anchor matches at position `p` of the string: at the
end, or just before a newline that ends the string. -/
def dollarAt (cs : List Char) (p : Nat) : Bool :=
  (p == cs.length) || ((p + 1 == cs.length) && (cs.drop p == ['\n']))

/-- Whether the regex `CODE = [a-f1-9][a-f0-9]{3,5}$` matches the span of
length `L` starting at position `i` of `cs` (`$` anchoring the end of the
span). -/
def matchAt (cs : List Char) (i L : Nat) : Bool :=
  if i + L ≤ cs.length then
    match (cs.drop i).take L with
    | [] => false
    | c :: rest => firstDigitOk c && rest.all hexDigitOk && dollarAt cs (i + L)
  else false

/-- The length of the match of `CODE` starting at position `i`, preferring the
longest (the `{3,5}` quantifier is greedy), or `none`. Total lengths are 4–6:
one `[a-f1-9]` character plus 3–5 `[a-f0-9]` characters. -/
def matchLenAt (cs : List Char) (i : Nat) : Option Nat :=
  [6, 5, 4].find? fun L => matchAt cs i L

/-- `CODE.search(...)`: the leftmost match of the regex, as the matched span. -/
def searchCODE (cs : List Char) : Option (List Char) :=
  (List.range (cs.length + 1)).findSome? fun i =>
    (matchLenAt cs i).map fun L => (cs.drop i).take L

/-- `Twemoji.trim_code`: the meaningful codepoint inside `codepoint`, or `None`
(also for a `None` or empty argument, which are falsy). -/
def trim_code (codepoint : Option String) : Option String :=
  match codepoint with
  | none => none
  | some s => if s = "" then none else (searchCODE s.toList).map String.mk

/-- The value of a `[a-f0-9]` character, as parsed by `int(code, 16)` (only
ever applied to regex-validated lowercase hex strings). -/
def hexCharVal (c : Char) : Nat :=
  if '0' ≤ c ∧ c ≤ '9' then c.toNat - 48
  else if 'a' ≤ c ∧ c ≤ 'f' then c.toNat - 87
  else 0

/-- `int(code, 16)` on a lowercase hex string. -/
def hexToNat (cs : List Char) : Nat :=
  cs.foldl (fun a c => 16 * a + hexCharVal c) 0

/-- The lowercase hex digit character for `d < 16`. -/
def hexDigitChar (d : Nat) : Char :=
  if d < 10 then Char.ofNat (48 + d) else Char.ofNat (87 + d)

/-- Digits of `n` in base 16 (most significant first, empty for 0), with an
explicit recursion bound: correct whenever `n < 16 ^ fuel`. -/
def pyHexGo : Nat → Nat → List Char
  | 0, _ => []
  | fuel + 1, n =>
    if n = 0 then [] else pyHexGo fuel (n / 16) ++ [hexDigitChar (n % 16)]

/-- Modelled from the spec: Python `hex(n)[2:]` — minimal lowercase hex digits
of `n`. The bound of 8 fuel makes it correct for every `n < 16 ^ 8`; it is
only ever applied to `ord` of a character, which is below `0x110000`. -/
def pyHex (n : Nat) : List Char :=
  if n = 0 then ['0'] else pyHexGo 8 n

/-- `Twemoji.codepoint`: `hex(ord(emoji))[2:]` for a single character. -/
def codepoint (emoji : Char) : String := String.mk (pyHex emoji.toNat)

/-- Modelled from the spec: Python `chr`, which raises `ValueError` above
`0x10FFFF`. (Lean characters exclude the surrogate range, which Python allows;
`Char.ofNat` maps those inputs to a default character. No claim distinguishes
the two, since the known-emoji predicate is abstract.) -/
def pychr (n : Nat) : Except PyError Char :=
  if n ≤ 0x10FFFF then Except.ok (Char.ofNat n) else Except.error PyError.valueError

/-- `Twemoji.emoji`: the character (as a one-character string) of a codepoint
in any format, or `""` when no codepoint is found. The `chr` call can raise,
hence the `Except`. -/
def emoji (codepoint : Option String) : Except PyError String :=
  match trim_code codepoint with
  | some code =>
    if code = "" then Except.ok ""
    else (pychr (hexToNat code.toList)).map fun c => String.mk [c]
  | none => Except.ok ""

/-- Whether a character separates words for Python `str.split()` (no
argument): the ASCII whitespace characters. (Python also splits on some
further Unicode spaces; no claim involves those.) -/
def isPyWhitespace (c : Char) : Bool :=
  c == ' ' || c == '\t' || c == '\n' || c == '\r' || c == '\x0b' || c == '\x0c'

/-- Structural model of Python `str.split()`: split on whitespace runs,
discarding empty pieces (the accumulator holds the current piece reversed). -/
def pySplitAux : List Char → List Char → List String
  | [], acc => if acc = [] then [] else [String.mk acc.reverse]
  | c :: cs, acc =>
    if isPyWhitespace c then
      if acc = [] then pySplitAux cs []
      else String.mk acc.reverse :: pySplitAux cs []
    else pySplitAux cs (c :: acc)

/-- Python `raw_emoji.split()`. -/
def pySplit (s : String) : List String := pySplitAux s.toList []

/-- Python `str.lower()` (ASCII case folding; Python folds further scripts,
which no claim involves). -/
def pyLower (s : String) : String := String.mk (s.toList.map Char.toLower)

/-- The `"".join(Twemoji.emoji(Twemoji.trim_code(code)) for code in emoji_list)`
step: resolve each code to its character and concatenate, propagating the
first `chr` failure (the generator is consumed left to right). -/
def joinEmojis : List String → Except PyError String
  | [] => Except.ok ""
  | code :: rest =>
    match emoji (trim_code (some code)) with
    | Except.error e => Except.error e
    | Except.ok s => (joinEmojis rest).map fun t => s ++ t

/-- `Twemoji.codepoint_from_input`: resolve raw user input to the canonical
hyphen-joined codepoint string. The known-emoji predicate `is_emoji` (from the
external `emoji` package) is passed as a parameter. -/
def codepoint_from_input (is_emoji : String → Bool) (raw_emoji : String) :
    Except PyError String :=
  let emoji_list := (pySplit raw_emoji).map pyLower
  match emoji_list with
  | [] => Except.error PyError.indexError
  | first :: _ =>
    if is_emoji first then
      Except.ok (joinSep "-" (first.toList.map codepoint))
    else
      match joinEmojis emoji_list with
      | Except.error e => Except.error e
      | Except.ok em =>
        if is_emoji em then Except.ok (joinSep "-" (em.toList.map codepoint))
        else Except.error PyError.valueError

/-- The per-unit outcome counts of a batch — `(successes, failures)` — when
`manage` is applied to each unit in input order, threading the host state. -/
def countOutcomes (h : Host) (a : Action) : List String → Nat × Nat
  | [] => (0, 0)
  | e :: rest =>
    let r := manage h a e
    let c := countOutcomes r.1 a rest
    match r.2.2 with
    | some _ => (c.1, c.2 + 1)
    | none => (c.1 + 1, c.2)

/-- The per-unit failure entries of a batch, in input order: the units whose
own `manage` call (at the host state reached after its predecessors) reports
an error, paired with that error message. -/
def errList (h : Host) (a : Action) : List String → List (String × String)
  | [] => []
  | e :: rest =>
    let r := manage h a e
    (match r.2.2 with
     | some err => [(e, err)]
     | none => []) ++ errList r.1 a rest

/-- A concrete host with one loaded extension and no failing setups. -/
def hostA : Host := ⟨["bot.exts.moderation.slowmode"], fun _ _ => none, []⟩

/-- A concrete `ExtensionFailed`-style exception wrapping a
`ZeroDivisionError`. -/
def pexcBad : PyExc :=
  ⟨"ExtensionFailed", "extension bot.exts.bad raised an error",
    some ("ZeroDivisionError", "division by zero")⟩

/-- A concrete host where loading `bot.exts.bad` raises `pexcBad`. -/
def hostC : Host :=
  ⟨[], fun _ e => if e = "bot.exts.bad" then some pexcBad else none, []⟩

theorem strAppendAssoc : ∀ a b c : String, a ++ b ++ c = a ++ (b ++ c)
  | ⟨a⟩, ⟨b⟩, ⟨c⟩ => congrArg String.mk (List.append_assoc a b c)

theorem toStringString (s : String) : toString s = s := rfl

theorem strAppendNilLeft : ∀ s : String, "" ++ s = s
  | ⟨_⟩ => rfl

theorem strAppendNilRight : ∀ s : String, s ++ "" = s
  | ⟨b⟩ => congrArg String.mk (List.append_nil b)

/-- C5: applying Load to an already-loaded extension never raises: `manage`
returns the non-fatal message "Extension `x` is already loaded." with no error
message and an unchanged extension table (the load operation is invoked, hence
logged, but changes nothing), and the single-unit batch report is that same
message with failure flag `false`. -/
theorem load_already_loaded_non_fatal (h : Host) (x : String) (hx : x ∈ h.loaded) :
    manage h Action.LOAD x =
      ({ h with log := h.log ++ [(Action.LOAD, x)] },
        s!"Extension `{x}` is already loaded.", none) ∧
    batch_manage h Action.LOAD [x] =
      ({ h with log := h.log ++ [(Action.LOAD, x)] },
        s!"Extension `{x}` is already loaded.", false) := by
  have hm : manage h Action.LOAD x =
      ({ h with log := h.log ++ [(Action.LOAD, x)] },
        s!"Extension `{x}` is already loaded.", none) := by
    simp only [manage, applyAction, Host.loadOp, Action.verb, hx, if_pos, if_true]
    simp only [toStringString, strAppendAssoc, strAppendNilLeft, strAppendNilRight]
    rfl
  exact ⟨hm, by simp only [batch_manage, hm, Option.isSome_none]⟩

theorem load_already_loaded_non_fatal_witness :
    ("bot.exts.moderation.slowmode" ∈ hostA.loaded) ∧
    (manage hostA Action.LOAD "bot.exts.moderation.slowmode" =
      ({ hostA with log := hostA.log ++ [(Action.LOAD, "bot.exts.moderation.slowmode")] },
        "Extension `bot.exts.moderation.slowmode` is already loaded.", none) ∧
    batch_manage hostA Action.LOAD ["bot.exts.moderation.slowmode"] =
      ({ hostA with log := hostA.log ++ [(Action.LOAD, "bot.exts.moderation.slowmode")] },
        "Extension `bot.exts.moderation.slowmode` is already loaded.", false)) :=
  ⟨by decide, load_already_loaded_non_fatal hostA "bot.exts.moderation.slowmode" (by decide)⟩

/-- C3: reloading an extension that is not currently loaded yields exactly the
outcome of loading it fresh — same status message, same error message, and the
same resulting extension table (via the one-level self-healing fallback of
`manage`). -/
theorem reload_not_loaded_as_load (h : Host) (x : String) (hx : x ∉ h.loaded) :
    (manage h Action.RELOAD x).2 = (manage h Action.LOAD x).2 ∧
    (manage h Action.RELOAD x).1.loaded = (manage h Action.LOAD x).1.loaded := by
  simp only [manage, manageNoFallback, applyAction, Host.reloadOp, Host.loadOp,
    Action.verb, hx, if_neg, if_false, ite_false, reduceIte]
  cases hs : h.setupExc h.loaded x with
  | none => simp only [hs]; exact ⟨trivial, trivial⟩
  | some e => simp only [hs, failResult]; exact ⟨trivial, trivial⟩

theorem reload_not_loaded_as_load_witness :
    ("bot.exts.twemoji.twemoji" ∉ hostA.loaded) ∧
    ((manage hostA Action.RELOAD "bot.exts.twemoji.twemoji").2 =
      (manage hostA Action.LOAD "bot.exts.twemoji.twemoji").2 ∧
    (manage hostA Action.RELOAD "bot.exts.twemoji.twemoji").1.loaded =
      (manage hostA Action.LOAD "bot.exts.twemoji.twemoji").1.loaded) :=
  ⟨by decide, reload_not_loaded_as_load hostA "bot.exts.twemoji.twemoji" (by decide)⟩

/-- C7: when the host operation fails with any error other than
already-loaded/not-loaded, the outcome of `manage` is a failure whose error
message is `"{error kind}: {error detail}"`, taken from the wrapped cause when
the raised exception wraps one (and from the exception itself otherwise). -/
theorem failure_message_unwraps_original (h : Host) (a : Action) (x : String)
    (pexc : PyExc) (hpexc : (applyAction h a x).2 = some (HostErr.exc pexc)) :
    (manage h a x).2.2 =
      some ((unwrapOriginal pexc).1 ++ ": " ++ (unwrapOriginal pexc).2) := by
  rcases hres : applyAction h a x with ⟨h1, res⟩
  rw [hres] at hpexc
  simp only at hpexc
  subst hpexc
  simp only [manage, hres, failResult]
  simp only [toStringString, strAppendAssoc, strAppendNilLeft, strAppendNilRight]

theorem failure_message_unwraps_original_witness :
    ((applyAction hostC Action.LOAD "bot.exts.bad").2 = some (HostErr.exc pexcBad)) ∧
    (manage hostC Action.LOAD "bot.exts.bad").2.2 =
      some ((unwrapOriginal pexcBad).1 ++ ": " ++ (unwrapOriginal pexcBad).2) :=
  ⟨by decide, failure_message_unwraps_original hostC Action.LOAD "bot.exts.bad" pexcBad (by decide)⟩

/-- C1: if any explicitly requested Unload target is denylisted, the command
aborts before anything happens: the host state is completely unchanged (no
operation is even logged, so no unit's load state changes), the embed is
marked as an error, and its message lists exactly the intersection of
`UNLOAD_BLACKLIST` with the requested targets. The equality holds whether or
not a wildcard is among the targets: the check precedes wildcard expansion and
any batch apply. -/
theorem unload_blacklist_aborts (h : Host) (extensions : List String)
    (hb : ∃ b ∈ UNLOAD_BLACKLIST, b ∈ extensions) :
    unload_command h extensions =
      (h, some ("The following extension(s) may not be unloaded:```\n" ++
        joinSep "\n" (UNLOAD_BLACKLIST.filter fun b => decide (b ∈ extensions)) ++
        "```", true)) := by
  obtain ⟨b, hbmem, hbin⟩ := hb
  have hbeq : b = extsModuleName ++ ".utils.extensions" := by
    simpa [UNLOAD_BLACKLIST] using hbmem
  subst hbeq
  have hne : extensions ≠ [] := by
    rintro rfl
    simp at hbin
  have hdec : decide ((extsModuleName ++ ".utils.extensions") ∈ extensions) = true :=
    decide_eq_true hbin
  have hfilter : (UNLOAD_BLACKLIST.filter fun b => decide (b ∈ extensions)) =
      [extsModuleName ++ ".utils.extensions"] := by
    simp only [UNLOAD_BLACKLIST, List.filter_cons, List.filter_nil, hdec, if_true, ite_true]
  have hjoin : joinSep "\n" [extsModuleName ++ ".utils.extensions"] =
      extsModuleName ++ ".utils.extensions" := rfl
  have hnonempty : ((extsModuleName ++ ".utils.extensions" : String) ≠ "") = True :=
    eq_true (by decide)
  simp only [unload_command, if_neg hne, hfilter, hjoin, hnonempty, if_true, ite_true]
  simp only [toStringString, strAppendAssoc, strAppendNilLeft, strAppendNilRight]
  try rfl

theorem unload_blacklist_aborts_witness :
    (∃ b ∈ UNLOAD_BLACKLIST, b ∈ ["bot.exts.utils.extensions", "*"]) ∧
    unload_command hostA ["bot.exts.utils.extensions", "*"] =
      (hostA, some ("The following extension(s) may not be unloaded:```\nbot.exts.utils.extensions```",
        true)) :=
  ⟨by decide, unload_blacklist_aborts hostA ["bot.exts.utils.extensions", "*"] (by decide)⟩

theorem manage_eq_noFallback (h : Host) (a : Action) (e : String)
    (ha : a ≠ Action.RELOAD) : manage h a e = manageNoFallback h a e := by
  rcases hres : applyAction h a e with ⟨h1, res⟩
  rcases res with _ | err
  · simp [manage, manageNoFallback, hres]
  · rcases err with _ | _ | ex <;> simp [manage, manageNoFallback, hres, ha]

theorem noFallback_log (h : Host) (a : Action) (e : String) :
    (manageNoFallback h a e).1.log = h.log ++ [(a, e)] := by
  cases a <;> by_cases hmem : e ∈ h.loaded <;>
    rcases hs : h.setupExc h.loaded e with _ | ex <;>
    simp [manageNoFallback, applyAction, Host.loadOp, Host.unloadOp, Host.reloadOp,
      failResult, hmem, hs]

theorem manage_log (h : Host) (a : Action) (e : String) :
    ∃ t, (manage h a e).1.log = h.log ++ (a, e) :: t := by
  by_cases ha : a = Action.RELOAD
  · subst ha
    by_cases hmem : e ∈ h.loaded
    · rcases hs : h.setupExc h.loaded e with _ | ex
      · exact ⟨[], by simp [manage, applyAction, Host.reloadOp, hmem, hs]⟩
      · exact ⟨[], by simp [manage, applyAction, Host.reloadOp, failResult, hmem, hs]⟩
    · have hm : manage h Action.RELOAD e =
          manageNoFallback { h with log := h.log ++ [(Action.RELOAD, e)] } Action.LOAD e := by
        simp [manage, applyAction, Host.reloadOp, hmem]
      refine ⟨[(Action.LOAD, e)], ?_⟩
      rw [hm, noFallback_log]
      simp
  · rw [manage_eq_noFallback h a e ha, noFallback_log]
    exact ⟨[], rfl⟩

theorem batchLoop_log_mono (a : Action) :
    ∀ (l : List String) (h : Host) (fs : List (String × String)),
      ∃ t, (batchLoop a h l fs).1.log = h.log ++ t := by
  intro l
  induction l with
  | nil => exact fun h fs => ⟨[], by simp [batchLoop]⟩
  | cons e rest ih =>
    intro h fs
    obtain ⟨t0, ht0⟩ := manage_log h a e
    rcases herr : (manage h a e).2.2 with _ | err
    · obtain ⟨t1, ht1⟩ := ih (manage h a e).1 fs
      refine ⟨((a, e) :: t0) ++ t1, ?_⟩
      simp only [batchLoop, herr]
      rw [ht1, ht0]
      simp
    · obtain ⟨t1, ht1⟩ := ih (manage h a e).1 (dictInsert fs e err)
      refine ⟨((a, e) :: t0) ++ t1, ?_⟩
      simp only [batchLoop, herr]
      rw [ht1, ht0]
      simp

theorem batchLoop_mem_log (a : Action) :
    ∀ (l : List String) (h : Host) (fs : List (String × String)) (x : String),
      x ∈ l → (a, x) ∈ (batchLoop a h l fs).1.log := by
  intro l
  induction l with
  | nil => intro h fs x hx; cases hx
  | cons e rest ih =>
    intro h fs x hx
    rcases List.mem_cons.mp hx with rfl | hx2
    · obtain ⟨t0, ht0⟩ := manage_log h a x
      rcases herr : (manage h a x).2.2 with _ | err <;> simp only [batchLoop, herr]
      · obtain ⟨t1, ht1⟩ := batchLoop_log_mono a rest (manage h a x).1 fs
        rw [ht1, ht0]
        simp
      · obtain ⟨t1, ht1⟩ := batchLoop_log_mono a rest (manage h a x).1 (dictInsert fs x err)
        rw [ht1, ht0]
        simp
    · rcases herr : (manage h a e).2.2 with _ | err <;> simp only [batchLoop, herr]
      · exact ih (manage h a e).1 fs x hx2
      · exact ih (manage h a e).1 (dictInsert fs e err) x hx2

/-- C2: `batch_manage` never raises (it is a total function into a plain
result triple) and processes every unit: (1) the host operation bound to the
action is invoked — hence logged — for every requested unit, whatever errors
other units produce; (2) the processing loop decomposes sequentially over a
split of the input, so a failure inside the first part never short-circuits
the second, which continues from the state the first part left; (3) one loop
step converts the unit's own error, if any, into a per-unit failure entry and
always continues with the remaining units. -/
theorem batch_processes_all_units (h : Host) (a : Action)
    (exts xs ys : List String) (fs : List (String × String)) (e : String)
    (rest : List String) :
    (∀ x ∈ exts, (a, x) ∈ (batch_manage h a exts).1.log) ∧
    (batchLoop a h (xs ++ ys) fs =
      batchLoop a (batchLoop a h xs fs).1 ys (batchLoop a h xs fs).2) ∧
    (batchLoop a h (e :: rest) fs =
      batchLoop a (manage h a e).1 rest
        (match (manage h a e).2.2 with
         | some err => dictInsert fs e err
         | none => fs)) := by
  refine ⟨?_, ?_, ?_⟩
  · intro x hx
    match exts, hx with
    | [x0], hx =>
      rcases List.mem_singleton.mp hx with rfl
      obtain ⟨t0, ht0⟩ := manage_log h a x
      simp only [batch_manage]
      rw [ht0]
      simp
    | x0 :: x1 :: rest2, hx =>
      have h1 : (batch_manage h a (x0 :: x1 :: rest2)).1 =
          (batchLoop a h (x0 :: x1 :: rest2) []).1 := by
        simp only [batch_manage]
        split <;> rfl
      rw [h1]
      exact batchLoop_mem_log a _ h [] x hx
  · induction xs generalizing h fs with
    | nil => simp [batchLoop]
    | cons z zs ih =>
      rcases herr : (manage h a z).2.2 with _ | err <;>
        simp only [List.cons_append, batchLoop, herr] <;> exact ih _ _
  · rcases herr : (manage h a e).2.2 with _ | err <;> simp only [batchLoop, herr]

theorem batch_processes_all_units_witness :
    ((Action.LOAD, "bot.exts.a") ∈
      (batch_manage hostC Action.LOAD ["bot.exts.a", "bot.exts.bad"]).1.log) ∧
    ((Action.LOAD, "bot.exts.bad") ∈
      (batch_manage hostC Action.LOAD ["bot.exts.a", "bot.exts.bad"]).1.log) :=
  ⟨(batch_processes_all_units hostC Action.LOAD ["bot.exts.a", "bot.exts.bad"]
      [] [] [] "" []).1 "bot.exts.a" (by decide),
   (batch_processes_all_units hostC Action.LOAD ["bot.exts.a", "bot.exts.bad"]
      [] [] [] "" []).1 "bot.exts.bad" (by decide)⟩

theorem dictInsert_fresh (fs : List (String × String)) (k v : String)
    (hk : ∀ q ∈ fs, q.1 ≠ k) : dictInsert fs k v = fs ++ [(k, v)] := by
  have hany : fs.any (fun p => p.1 == k) = false := by
    rw [List.any_eq_false]
    intro p hp
    simpa using hk p hp
  simp [dictInsert, hany]

theorem countOutcomes_total (a : Action) :
    ∀ (l : List String) (h : Host),
      (countOutcomes h a l).1 + (countOutcomes h a l).2 = l.length := by
  intro l
  induction l with
  | nil => intro h; simp [countOutcomes]
  | cons e rest ih =>
    intro h
    have := ih (manage h a e).1
    rcases herr : (manage h a e).2.2 with _ | err <;>
      simp only [countOutcomes, herr, List.length_cons] <;> omega

theorem errList_length (a : Action) :
    ∀ (l : List String) (h : Host),
      (errList h a l).length = (countOutcomes h a l).2 := by
  intro l
  induction l with
  | nil => intro h; simp [errList, countOutcomes]
  | cons e rest ih =>
    intro h
    have := ih (manage h a e).1
    rcases herr : (manage h a e).2.2 with _ | err <;>
      simp only [errList, countOutcomes, herr, List.length_append, List.length_cons,
        List.length_nil, List.nil_append, List.singleton_append] <;> omega

theorem batchLoop_failures (a : Action) :
    ∀ (l : List String) (h : Host) (fs : List (String × String)),
      (∀ x ∈ l, ∀ q ∈ fs, q.1 ≠ x) → l.Nodup →
      (batchLoop a h l fs).2 = fs ++ errList h a l := by
  intro l
  induction l with
  | nil => intro h fs _ _; simp [batchLoop, errList]
  | cons e rest ih =>
    intro h fs hfresh hnd
    rcases herr : (manage h a e).2.2 with _ | err
    · simp only [batchLoop, errList, herr, List.nil_append]
      exact ih (manage h a e).1 fs
        (fun x hx q hq => hfresh x (List.mem_cons_of_mem _ hx) q hq) hnd.of_cons
    · simp only [batchLoop, errList, herr, List.singleton_append]
      rw [dictInsert_fresh fs e err (fun q hq => hfresh e (List.mem_cons_self _ _) q hq)]
      have hfresh2 : ∀ x ∈ rest, ∀ q ∈ fs ++ [(e, err)], q.1 ≠ x := by
        intro x hx q hq
        rcases List.mem_append.mp hq with hq1 | hq2
        · exact hfresh x (List.mem_cons_of_mem _ hx) q hq1
        · have hqe : q = (e, err) := by simpa using hq2
          subst hqe
          intro hex
          exact (List.nodup_cons.mp hnd).1 (by rw [← hex] at hx; exact hx)
      rw [ih (manage h a e).1 (fs ++ [(e, err)]) hfresh2 hnd.of_cons]
      simp

/-- C4: for a batch of two or more unique unit ids, the per-unit success and
failure counts sum to the number of units requested, the summary message is
"K / N extensions <verb>ed." where K is exactly the number of successful
units (equivalently, total minus failed) and N the total, and when some unit
failed, the message additionally lists each failed unit id with its error
message; the error flag is set exactly when some unit failed. -/
theorem batch_report_counts (h : Host) (a : Action) (exts : List String)
    (hlen : 2 ≤ exts.length) (hnd : exts.Nodup) :
    (countOutcomes h a exts).1 + (countOutcomes h a exts).2 = exts.length ∧
    (batch_manage h a exts).2.1 =
      toString (countOutcomes h a exts).1 ++ " / " ++ toString exts.length ++
        " extensions " ++ a.verb ++ "ed." ++
        (if (countOutcomes h a exts).2 = 0 then "" else
          "\n\n**Failures:**```\n" ++
          joinSep "\n" ((errList h a exts).map fun q => q.1 ++ "\n    " ++ q.2) ++
          "```") ∧
    ((batch_manage h a exts).2.2 = true ↔ (countOutcomes h a exts).2 ≠ 0) := by
  match exts, hlen, hnd with
  | x0 :: x1 :: rest, _, hnd =>
  have hcnt := countOutcomes_total a (x0 :: x1 :: rest) h
  have herrlen := errList_length a (x0 :: x1 :: rest) h
  have hspec : (batchLoop a h (x0 :: x1 :: rest) []).2 = errList h a (x0 :: x1 :: rest) := by
    rw [batchLoop_failures a (x0 :: x1 :: rest) h [] (by simp) hnd]
    simp
  refine ⟨hcnt, ?_, ?_⟩
  · by_cases hf : (countOutcomes h a (x0 :: x1 :: rest)).2 = 0
    · have hnil : errList h a (x0 :: x1 :: rest) = [] :=
        List.length_eq_zero.mp (by rw [herrlen, hf])
      have hs : (countOutcomes h a (x0 :: x1 :: rest)).1 = (x0 :: x1 :: rest).length := by
        omega
      simp only [batch_manage, hspec, hnil, List.isEmpty_nil, if_true, ite_true, hf, hs]
      simp only [toStringString, strAppendAssoc, strAppendNilLeft, strAppendNilRight]
      rfl
    · have hne : ¬(errList h a (x0 :: x1 :: rest)).isEmpty = true := by
        rw [List.isEmpty_iff]
        intro hnil
        rw [hnil] at herrlen
        simp at herrlen
        omega
      have hs : (countOutcomes h a (x0 :: x1 :: rest)).1 =
          (x0 :: x1 :: rest).length - (errList h a (x0 :: x1 :: rest)).length := by
        omega
      simp only [batch_manage, hspec, if_neg hne, hf, ite_false, if_false, ← hs]
      simp only [toStringString, strAppendAssoc, strAppendNilLeft, strAppendNilRight]
  · by_cases hf : (countOutcomes h a (x0 :: x1 :: rest)).2 = 0
    · have hnil : errList h a (x0 :: x1 :: rest) = [] :=
        List.length_eq_zero.mp (by rw [herrlen, hf])
      simp [batch_manage, hspec, hnil, hf]
    · have hnil2 : ¬errList h a (x0 :: x1 :: rest) = [] := by
        intro hnil
        rw [hnil] at herrlen
        simp at herrlen
        omega
      simp [batch_manage, hspec, hnil2, hf]

theorem batch_report_counts_witness :
    (2 ≤ (["bot.exts.a", "bot.exts.bad"] : List String).length ∧
      (["bot.exts.a", "bot.exts.bad"] : List String).Nodup) ∧
    ((countOutcomes hostC Action.LOAD ["bot.exts.a", "bot.exts.bad"]).1 +
        (countOutcomes hostC Action.LOAD ["bot.exts.a", "bot.exts.bad"]).2 =
        (["bot.exts.a", "bot.exts.bad"] : List String).length ∧
    (batch_manage hostC Action.LOAD ["bot.exts.a", "bot.exts.bad"]).2.1 =
      toString (countOutcomes hostC Action.LOAD ["bot.exts.a", "bot.exts.bad"]).1 ++
        " / " ++ toString (["bot.exts.a", "bot.exts.bad"] : List String).length ++
        " extensions " ++ Action.LOAD.verb ++ "ed." ++
        (if (countOutcomes hostC Action.LOAD ["bot.exts.a", "bot.exts.bad"]).2 = 0 then ""
         else
          "\n\n**Failures:**```\n" ++
          joinSep "\n" ((errList hostC Action.LOAD ["bot.exts.a", "bot.exts.bad"]).map
            fun q => q.1 ++ "\n    " ++ q.2) ++ "```") ∧
    ((batch_manage hostC Action.LOAD ["bot.exts.a", "bot.exts.bad"]).2.2 = true ↔
      (countOutcomes hostC Action.LOAD ["bot.exts.a", "bot.exts.bad"]).2 ≠ 0)) :=
  ⟨⟨by decide, by decide⟩,
    batch_report_counts hostC Action.LOAD ["bot.exts.a", "bot.exts.bad"]
      (by decide) (by decide)⟩

/-- C8: the status marker attached to a known unit is purely a function of
that unit's membership in the currently loaded set: any two loaded sets
agreeing on the unit's membership give it the same status line, and two
loaded sets agreeing on every unit's membership produce the very same
category listing — no other state influences the markers. -/
theorem status_marker_noninterference (extsList l1 l2 : List String) (e : String) :
    (((e ∈ l1) ↔ (e ∈ l2)) → entryOf l1 e = entryOf l2 e) ∧
    ((∀ x, (x ∈ l1) ↔ (x ∈ l2)) →
      group_extension_statuses extsList l1 = group_extension_statuses extsList l2) := by
  constructor
  · intro hiff
    have hEq : (e ∈ l1) = (e ∈ l2) := propext hiff
    simp only [entryOf, hEq]
  · intro hall
    have hent : ∀ x, entryOf l1 x = entryOf l2 x := by
      intro x
      have hEq : (x ∈ l1) = (x ∈ l2) := propext (hall x)
      simp only [entryOf, hEq]
    suffices hgen : ∀ (L : List String) (c : List (String × List String)),
        L.foldl (fun cats ext => addEntry cats (categoryOf ext) (entryOf l1 ext)) c =
        L.foldl (fun cats ext => addEntry cats (categoryOf ext) (entryOf l2 ext)) c by
      exact hgen extsList []
    intro L
    induction L with
    | nil => intro c; rfl
    | cons x xs ih =>
      intro c
      simp only [List.foldl_cons, hent x]
      exact ih _

theorem status_marker_noninterference_witness :
    (entryOf ["bot.exts.a.x"] "bot.exts.a.x" =
      entryOf ["bot.exts.a.x", "bot.exts.b.y"] "bot.exts.a.x") ∧
    (group_extension_statuses ["bot.exts.a.x"] ["u", "v"] =
      group_extension_statuses ["bot.exts.a.x"] ["v", "u"]) :=
  ⟨(status_marker_noninterference ["bot.exts.a.x"] ["bot.exts.a.x"]
      ["bot.exts.a.x", "bot.exts.b.y"] "bot.exts.a.x").1 (by simp),
   (status_marker_noninterference ["bot.exts.a.x"] ["u", "v"] ["v", "u"] "").2
     (fun x => by
        simp only [List.mem_cons, List.not_mem_nil, or_false]
        exact or_comm)⟩

theorem anyKeyIff (c : List (String × List String)) (cat : String) :
    (c.any fun p => p.1 == cat) = true ↔ cat ∈ c.map Prod.fst := by
  rw [List.any_eq_true]
  constructor
  · rintro ⟨p, hp, hbeq⟩
    exact List.mem_map.mpr ⟨p, hp, by simpa using hbeq⟩
  · intro hm
    obtain ⟨p, hp, hfst⟩ := List.mem_map.mp hm
    exact ⟨p, hp, by simp [hfst]⟩

/-- C6: `group_extension_statuses` is a total partition of the known units:
the category keys are pairwise distinct, each category's bucket is exactly
the in-order list of status lines of the known units whose category it is,
and every known unit's category occurs among the keys — so every known unit
contributes exactly one line to exactly one bucket. -/
theorem group_partition (extsList loaded : List String) :
    ((group_extension_statuses extsList loaded).map Prod.fst).Nodup ∧
    (∀ cat bucket, (cat, bucket) ∈ group_extension_statuses extsList loaded →
      bucket = (extsList.filter fun x => categoryOf x = cat).map (entryOf loaded)) ∧
    (∀ x ∈ extsList, categoryOf x ∈ (group_extension_statuses extsList loaded).map Prod.fst) := by
  induction extsList using List.reverseRecOn with
  | nil => simp [group_extension_statuses]
  | append_singleton l e ih =>
    obtain ⟨ihN, ihB, ihK⟩ := ih
    have hG : group_extension_statuses (l ++ [e]) loaded =
        addEntry (group_extension_statuses l loaded) (categoryOf e) (entryOf loaded e) := by
      simp [group_extension_statuses, List.foldl_append]
    by_cases hmem : categoryOf e ∈ (group_extension_statuses l loaded).map Prod.fst
    · have hA : addEntry (group_extension_statuses l loaded) (categoryOf e) (entryOf loaded e) =
          (group_extension_statuses l loaded).map fun p =>
            if p.1 = categoryOf e then (p.1, p.2 ++ [entryOf loaded e]) else p := by
        rw [addEntry, if_pos ((anyKeyIff _ _).mpr hmem)]
      have hkeys : (((group_extension_statuses l loaded).map fun p =>
            if p.1 = categoryOf e then (p.1, p.2 ++ [entryOf loaded e]) else p).map Prod.fst) =
          (group_extension_statuses l loaded).map Prod.fst := by
        rw [List.map_map]
        exact List.map_congr_left fun p _ => by
          by_cases hp : p.1 = categoryOf e <;> simp [hp]
      refine ⟨?_, ?_, ?_⟩
      · rw [hG, hA, hkeys]; exact ihN
      · intro cat2 b2 hmem2
        rw [hG, hA] at hmem2
        obtain ⟨p, hpG, hpe⟩ := List.mem_map.mp hmem2
        have hpG2 : (p.1, p.2) ∈ group_extension_statuses l loaded := by
          rw [Prod.mk.eta]; exact hpG
        have hb := ihB p.1 p.2 hpG2
        by_cases hp : p.1 = categoryOf e
        · rw [if_pos hp] at hpe
          injection hpe with hc hbk
          subst hc
          subst hbk
          rw [List.filter_append, List.map_append, ← hb]
          simp [List.filter_cons, hp]
        · rw [if_neg hp] at hpe
          have hc : p.1 = cat2 := congrArg Prod.fst hpe
          have hb2 : p.2 = b2 := congrArg Prod.snd hpe
          rw [← hb2, hb, hc]
          rw [List.filter_append, List.map_append]
          have hne : ¬(categoryOf e = cat2) := fun hh => hp (by rw [hh, ← hc])
          simp [List.filter_cons, hne]
      · intro x hx
        rw [hG, hA, hkeys]
        rcases List.mem_append.mp hx with hx1 | hx2
        · exact ihK x hx1
        · have hxe : x = e := by simpa using hx2
          subst hxe
          exact hmem
    · have hA : addEntry (group_extension_statuses l loaded) (categoryOf e) (entryOf loaded e) =
          group_extension_statuses l loaded ++ [(categoryOf e, [entryOf loaded e])] := by
        rw [addEntry, if_neg (fun hc => hmem ((anyKeyIff _ _).mp hc))]
      refine ⟨?_, ?_, ?_⟩
      · rw [hG, hA]
        simp only [List.map_append, List.map_cons, List.map_nil]
        rw [List.nodup_append]
        refine ⟨ihN, List.nodup_singleton _, ?_⟩
        intro a ha hb
        have hae : a = categoryOf e := by simpa using hb
        subst hae
        exact hmem ha
      · intro cat2 b2 hmem2
        rw [hG, hA] at hmem2
        rcases List.mem_append.mp hmem2 with hin | hnew
        · have hb := ihB cat2 b2 hin
          have hkmem : cat2 ∈ (group_extension_statuses l loaded).map Prod.fst :=
            List.mem_map.mpr ⟨(cat2, b2), hin, rfl⟩
          have hne : ¬(categoryOf e = cat2) := fun hh => hmem (hh ▸ hkmem)
          rw [hb, List.filter_append, List.map_append]
          simp [List.filter_cons, hne]
        · have hpair : (cat2, b2) = (categoryOf e, [entryOf loaded e]) := by
            simpa using hnew
          have hc : cat2 = categoryOf e := congrArg Prod.fst hpair
          have hbk : b2 = [entryOf loaded e] := congrArg Prod.snd hpair
          rw [hbk, hc]
          have hfl : l.filter (fun x => categoryOf x = categoryOf e) = [] := by
            rw [List.filter_eq_nil_iff]
            intro x hx
            simp only [decide_eq_true_eq]
            intro hcx
            exact hmem (hcx ▸ ihK x hx)
          rw [List.filter_append, hfl]
          simp [List.filter_cons]
      · intro x hx
        rw [hG, hA]
        simp only [List.map_append, List.map_cons, List.map_nil]
        rcases List.mem_append.mp hx with hx1 | hx2
        · exact List.mem_append_left _ (ihK x hx1)
        · have hxe : x = e := by simpa using hx2
          subst hxe
          exact List.mem_append_right _ (by simp)

theorem group_partition_witness :
    (("a - b", [entryOf ["bot.exts.a.b.x"] "bot.exts.a.b.x",
        entryOf ["bot.exts.a.b.x"] "bot.exts.a.b.y"]) ∈
      group_extension_statuses ["bot.exts.a.b.x", "bot.exts.a.b.y", "bot.exts.a.c.z"]
        ["bot.exts.a.b.x"]) ∧
    ([entryOf ["bot.exts.a.b.x"] "bot.exts.a.b.x",
        entryOf ["bot.exts.a.b.x"] "bot.exts.a.b.y"] =
      ((["bot.exts.a.b.x", "bot.exts.a.b.y", "bot.exts.a.c.z"] : List String).filter
        fun x => categoryOf x = "a - b").map (entryOf ["bot.exts.a.b.x"])) :=
  ⟨by decide,
    (group_partition ["bot.exts.a.b.x", "bot.exts.a.b.y", "bot.exts.a.c.z"]
        ["bot.exts.a.b.x"]).2.1 "a - b"
      [entryOf ["bot.exts.a.b.x"] "bot.exts.a.b.x",
        entryOf ["bot.exts.a.b.x"] "bot.exts.a.b.y"] (by decide)⟩

theorem emoji_error_is_valueError (os : Option String) (err : PyError)
    (h : emoji os = Except.error err) : err = PyError.valueError := by
  rcases htc : trim_code os with _ | code
  · simp [emoji, htc] at h
  · simp only [emoji, htc] at h
    by_cases hc : code = ""
    · rw [if_pos hc] at h
      simp at h
    · rw [if_neg hc, pychr] at h
      by_cases hn : hexToNat code.toList ≤ 0x10FFFF
      · rw [if_pos hn] at h
        simp [Except.map] at h
      · rw [if_neg hn] at h
        simp [Except.map] at h
        exact h.symm

theorem joinEmojis_error_is_valueError :
    ∀ (codes : List String) (err : PyError),
      joinEmojis codes = Except.error err → err = PyError.valueError := by
  intro codes
  induction codes with
  | nil => intro err h; simp [joinEmojis] at h
  | cons code rest ih =>
    intro err h
    rw [joinEmojis] at h
    rcases he : emoji (trim_code (some code)) with e | s <;> rw [he] at h
    · injection h with h2
      subst h2
      exact emoji_error_is_valueError _ _ he
    · rcases hr : joinEmojis rest with e2 | s2 <;> rw [hr] at h
      · simp [Except.map] at h
        exact h ▸ ih e2 hr
      · simp [Except.map] at h

/-- C9 (amended): whenever the whitespace-split token list of the raw input is
non-empty, `codepoint_from_input` either returns the canonical codepoint
string — the lowercase hex codepoints of the resolved emoji's characters
joined by `"-"` — for some resolved emoji accepted by the known-emoji
predicate, or raises `ValueError`. (A whitespace-only input instead raises
`IndexError` from the `emoji_list[0]` access; see the counterexample.) -/
theorem codepoint_from_input_total_spec (is_emoji : String → Bool)
    (raw : String) (hne : pySplit raw ≠ []) :
    (∃ em, is_emoji em = true ∧
      codepoint_from_input is_emoji raw =
        Except.ok (joinSep "-" (em.toList.map codepoint))) ∨
    codepoint_from_input is_emoji raw = Except.error PyError.valueError := by
  rcases hsplit : (pySplit raw).map pyLower with _ | ⟨first, rest⟩
  · exact absurd (List.map_eq_nil_iff.mp hsplit) hne
  · by_cases hfirst : is_emoji first = true
    · exact Or.inl ⟨first, hfirst, by
        simp only [codepoint_from_input, hsplit, hfirst, if_true, ite_true]⟩
    · have hfirst2 : is_emoji first = false := by
        rcases Bool.dichotomy (is_emoji first) with h | h
        · exact h
        · exact absurd h hfirst
      rcases hj : joinEmojis (first :: rest) with e | em
      · refine Or.inr ?_
        have he : e = PyError.valueError := joinEmojis_error_is_valueError _ _ hj
        subst he
        simp only [codepoint_from_input, hsplit, hfirst2, if_false, ite_false,
          Bool.false_eq_true, hj]
      · by_cases hem : is_emoji em = true
        · exact Or.inl ⟨em, hem, by
            simp only [codepoint_from_input, hsplit, hfirst2, if_false, ite_false,
              Bool.false_eq_true, hj, hem, if_true, ite_true]⟩
        · have hem2 : is_emoji em = false := by
            rcases Bool.dichotomy (is_emoji em) with h | h
            · exact h
            · exact absurd h hem
          refine Or.inr ?_
          simp only [codepoint_from_input, hsplit, hfirst2, hem2, if_false, ite_false,
            Bool.false_eq_true, hj]

theorem codepoint_from_input_total_spec_witness :
    (pySplit "1F40D" ≠ []) ∧
    ((∃ em, (fun s => s == "🐍") em = true ∧
      codepoint_from_input (fun s => s == "🐍") "1F40D" =
        Except.ok (joinSep "-" (em.toList.map codepoint))) ∨
    codepoint_from_input (fun s => s == "🐍") "1F40D" = Except.error PyError.valueError) :=
  ⟨by decide, codepoint_from_input_total_spec (fun s => s == "🐍") "1F40D" (by decide)⟩

/-- C9 counterexample: on the whitespace-only input `" "` the token list is
empty and `codepoint_from_input` raises `IndexError` — not `ValueError`, and
it does not return a codepoint string — refuting the claim as stated for
every raw input string. -/
theorem codepoint_from_input_whitespace_counterexample :
    codepoint_from_input (fun _ => false) " " = Except.error PyError.indexError ∧
    PyError.indexError ≠ PyError.valueError := by
  constructor
  · rfl
  · decide

theorem hexCharVal_hexDigitChar : ∀ d : Nat, d < 16 → hexCharVal (hexDigitChar d) = d := by
  decide

theorem hexDigitOk_hexDigitChar : ∀ d : Nat, d < 16 → hexDigitOk (hexDigitChar d) = true := by
  decide

theorem firstDigitOk_hexDigitChar :
    ∀ d : Nat, d < 16 → 1 ≤ d → firstDigitOk (hexDigitChar d) = true := by
  decide

theorem pyHexGo_zero (fuel : Nat) : pyHexGo fuel 0 = [] := by
  cases fuel <;> simp [pyHexGo]

theorem hexToNat_append_singleton (xs : List Char) (c : Char) :
    hexToNat (xs ++ [c]) = 16 * hexToNat xs + hexCharVal c := by
  simp [hexToNat, List.foldl_append]

theorem pyHexGo_hexToNat : ∀ fuel n : Nat, n < 16 ^ fuel →
    hexToNat (pyHexGo fuel n) = n := by
  intro fuel
  induction fuel with
  | zero =>
    intro n hn
    have hn0 : n = 0 := by simpa using hn
    subst hn0
    simp [pyHexGo, hexToNat]
  | succ f ih =>
    intro n hn
    by_cases h0 : n = 0
    · subst h0; simp [pyHexGo, hexToNat]
    · have hdiv : n / 16 < 16 ^ f := by
        rw [Nat.div_lt_iff_lt_mul (by norm_num)]
        calc n < 16 ^ (f + 1) := hn
        _ = 16 ^ f * 16 := pow_succ 16 f
      have hmod : n % 16 < 16 := Nat.mod_lt _ (by norm_num)
      simp only [pyHexGo, if_neg h0, hexToNat_append_singleton, ih (n / 16) hdiv,
        hexCharVal_hexDigitChar (n % 16) hmod]
      omega

theorem pyHexGo_length_le : ∀ fuel n k : Nat, n < 16 ^ k →
    (pyHexGo fuel n).length ≤ k := by
  intro fuel
  induction fuel with
  | zero => intro n k _; simp [pyHexGo]
  | succ f ih =>
    intro n k hn
    by_cases h0 : n = 0
    · subst h0; simp [pyHexGo]
    · simp only [pyHexGo, if_neg h0, List.length_append, List.length_cons,
        List.length_nil]
      have hk : 1 ≤ k := by
        by_contra hk0
        have hke : k = 0 := by omega
        subst hke
        simp at hn
        omega
      have hdiv : n / 16 < 16 ^ (k - 1) := by
        have h16 : 16 ^ k = 16 ^ (k - 1) * 16 := by
          conv_lhs => rw [show k = (k - 1) + 1 by omega]
          rw [pow_succ]
        rw [Nat.div_lt_iff_lt_mul (by norm_num)]
        omega
      have := ih (n / 16) (k - 1) hdiv
      omega

theorem pyHexGo_length_gt : ∀ fuel n k : Nat, n < 16 ^ fuel → 16 ^ k ≤ n →
    k < (pyHexGo fuel n).length := by
  intro fuel
  induction fuel with
  | zero =>
    intro n k hn hk
    have h1 : 1 ≤ 16 ^ k := Nat.one_le_pow _ _ (by norm_num)
    have hn0 : n = 0 := by simpa using hn
    omega
  | succ f ih =>
    intro n k hn hk
    have h1 : 1 ≤ 16 ^ k := Nat.one_le_pow _ _ (by norm_num)
    have h0 : n ≠ 0 := by omega
    simp only [pyHexGo, if_neg h0, List.length_append, List.length_cons,
      List.length_nil]
    rcases k with _ | k2
    · omega
    · have hdiv1 : 16 ^ k2 ≤ n / 16 := by
        rw [Nat.le_div_iff_mul_le (by norm_num)]
        calc 16 ^ k2 * 16 = 16 ^ (k2 + 1) := (pow_succ 16 k2).symm
        _ ≤ n := hk
      have hdiv2 : n / 16 < 16 ^ f := by
        rw [Nat.div_lt_iff_lt_mul (by norm_num)]
        calc n < 16 ^ (f + 1) := hn
        _ = 16 ^ f * 16 := pow_succ 16 f
      have := ih (n / 16) k2 hdiv2 hdiv1
      omega

theorem pyHexGo_all_hex : ∀ fuel n : Nat, ∀ c ∈ pyHexGo fuel n,
    hexDigitOk c = true := by
  intro fuel
  induction fuel with
  | zero => intro n c hc; simp [pyHexGo] at hc
  | succ f ih =>
    intro n c hc
    by_cases h0 : n = 0
    · subst h0; simp [pyHexGo] at hc
    · simp only [pyHexGo, if_neg h0] at hc
      rcases List.mem_append.mp hc with h1 | h2
      · exact ih _ _ h1
      · have hce : c = hexDigitChar (n % 16) := by simpa using h2
        subst hce
        exact hexDigitOk_hexDigitChar _ (Nat.mod_lt _ (by norm_num))

theorem pyHexGo_head : ∀ fuel n : Nat, 1 ≤ n → n < 16 ^ fuel →
    ∃ c rest, pyHexGo fuel n = c :: rest ∧ firstDigitOk c = true := by
  intro fuel
  induction fuel with
  | zero =>
    intro n h1 hn
    have hn0 : n = 0 := by simpa using hn
    omega
  | succ f ih =>
    intro n h1 hn
    have h0 : n ≠ 0 := by omega
    by_cases hlt : n < 16
    · have hdiv0 : n / 16 = 0 := Nat.div_eq_of_lt hlt
      refine ⟨hexDigitChar (n % 16), [], ?_, ?_⟩
      · simp only [pyHexGo, if_neg h0, hdiv0, pyHexGo_zero, List.nil_append]
      · have hmod : n % 16 = n := Nat.mod_eq_of_lt hlt
        rw [hmod]
        exact firstDigitOk_hexDigitChar n hlt h1
    · have hd1 : 1 ≤ n / 16 := by
        rw [Nat.le_div_iff_mul_le (by norm_num)]
        omega
      have hd2 : n / 16 < 16 ^ f := by
        rw [Nat.div_lt_iff_lt_mul (by norm_num)]
        calc n < 16 ^ (f + 1) := hn
        _ = 16 ^ f * 16 := pow_succ 16 f
      obtain ⟨c, rest, hgo, hfo⟩ := ih (n / 16) hd1 hd2
      refine ⟨c, rest ++ [hexDigitChar (n % 16)], ?_, hfo⟩
      simp only [pyHexGo, if_neg h0, hgo, List.cons_append]

theorem searchCODE_full (cs : List Char) (h4 : 4 ≤ cs.length) (h6 : cs.length ≤ 6)
    (hhead : ∃ c rest, cs = c :: rest ∧ firstDigitOk c = true)
    (hall : ∀ c ∈ cs, hexDigitOk c = true) :
    searchCODE cs = some cs := by
  have hmlen : matchAt cs 0 cs.length = true := by
    rw [matchAt, if_pos (by omega)]
    obtain ⟨c, rest, hcs, hfo⟩ := hhead
    rw [List.drop_zero, List.take_length, hcs]
    have hrest : rest.all hexDigitOk = true :=
      List.all_eq_true.mpr fun x hx => hall x (by rw [hcs]; exact List.mem_cons_of_mem _ hx)
    rw [dollarAt]
    simp [hfo, hrest, hcs]
  have hmgt : ∀ L, cs.length < L → matchAt cs 0 L = false := by
    intro L hL
    rw [matchAt, if_neg (by omega)]
  have hfind : [6, 5, 4].find? (fun L => matchAt cs 0 L) = some cs.length := by
    rcases (show cs.length = 4 ∨ cs.length = 5 ∨ cs.length = 6 by omega) with h | h | h
    · have m6 := hmgt 6 (by omega)
      have m5 := hmgt 5 (by omega)
      rw [h] at hmlen
      rw [h]
      simp [List.find?, m6, m5, hmlen]
    · have m6 := hmgt 6 (by omega)
      rw [h] at hmlen
      rw [h]
      simp [List.find?, m6, hmlen]
    · rw [h] at hmlen
      rw [h]
      simp [List.find?, hmlen]
  have hrange : List.range (cs.length + 1) = 0 :: (List.range cs.length).map Nat.succ :=
    List.range_succ_eq_map cs.length
  rw [searchCODE, hrange, List.findSome?_cons]
  rw [matchLenAt, hfind]
  simp [List.take_length]

theorem searchCODE_short (cs : List Char) (h3 : cs.length ≤ 3) :
    searchCODE cs = none := by
  rw [searchCODE]
  rw [List.findSome?_eq_none_iff]
  intro i _
  rw [matchLenAt]
  have hmf : ∀ L ∈ [6, 5, 4], (matchAt cs i L) = false := by
    intro L hL
    have hL4 : 4 ≤ L := by
      rcases (show L = 6 ∨ L = 5 ∨ L = 4 by simpa using hL) with h | h | h <;> omega
    rw [matchAt, if_neg (by omega)]
  rw [List.find?_eq_none.mpr fun L hL => by rw [hmf L hL]; exact Bool.false_ne_true]
  rfl

/-- C10: for every single character `e`, the round trip
`Twemoji.emoji(Twemoji.codepoint(e))` never raises; it returns the
one-character string `e` itself exactly when `ord(e) ≥ 0x1000` — where the
minimal hex representation has 4 to 6 digits with a non-zero first digit, so
`trim_code` keeps it whole — and returns `""` when `ord(e) < 0x1000`, where
the hex representation is at most 3 digits long and `CODE` cannot match. -/
theorem emoji_codepoint_roundtrip (e : Char) :
    (0x1000 ≤ e.toNat → emoji (some (codepoint e)) = Except.ok (String.mk [e])) ∧
    (e.toNat < 0x1000 → emoji (some (codepoint e)) = Except.ok "") := by
  constructor
  · intro hge
    have hv : e.val.toNat < 0xd800 ∨ (0xdfff < e.val.toNat ∧ e.val.toNat < 0x110000) :=
      e.valid
    have hvalid : e.toNat < 0x110000 := by
      show e.val.toNat < 0x110000
      rcases hv with h | ⟨_, h⟩ <;> omega
    have hge2 : 0x1000 ≤ e.val.toNat := hge
    have hne0 : e.toNat ≠ 0 := by
      show e.val.toNat ≠ 0
      omega
    have hfuel : e.toNat < 16 ^ 8 := by
      have hp : (16 : Nat) ^ 8 = 4294967296 := by norm_num
      show e.val.toNat < 16 ^ 8
      omega
    have hpy : pyHex e.toNat = pyHexGo 8 e.toNat := by rw [pyHex, if_neg hne0]
    have hlen4 : 4 ≤ (pyHexGo 8 e.toNat).length := by
      have hp3 : (16 : Nat) ^ 3 = 4096 := by norm_num
      have := pyHexGo_length_gt 8 e.toNat 3 hfuel (by show 16 ^ 3 ≤ e.val.toNat; omega)
      omega
    have hlen6 : (pyHexGo 8 e.toNat).length ≤ 6 := by
      refine pyHexGo_length_le 8 e.toNat 6 ?_
      have hp6 : (16 : Nat) ^ 6 = 16777216 := by norm_num
      show e.val.toNat < 16 ^ 6
      omega
    have hhead := pyHexGo_head 8 e.toNat (by show 1 ≤ e.val.toNat; omega) hfuel
    have hall := fun c hc => pyHexGo_all_hex 8 e.toNat c hc
    have htl : (codepoint e).toList = pyHexGo 8 e.toNat := by
      rw [codepoint, hpy]
      rfl
    have hsne : codepoint e ≠ "" := by
      rw [codepoint, hpy]
      obtain ⟨c, rest, hgo, _⟩ := hhead
      rw [hgo]
      intro hcon
      have : (c :: rest : List Char) = [] := congrArg String.toList hcon
      cases this
    have hsome : trim_code (some (codepoint e)) = some (codepoint e) := by
      rw [trim_code, if_neg hsne, htl, searchCODE_full _ hlen4 hlen6 hhead hall]
      simp only [Option.map_some']
      rw [codepoint, hpy]
    rw [emoji, hsome]
    simp only [if_neg hsne]
    rw [htl, pyHexGo_hexToNat 8 e.toNat hfuel, pychr,
      if_pos (show e.toNat ≤ 0x10FFFF by show e.val.toNat ≤ 0x10FFFF; omega)]
    rw [Char.ofNat_toNat]
    rfl
  · intro hlt
    have hsne : codepoint e ≠ "" := by
      rw [codepoint, pyHex]
      by_cases h0 : e.toNat = 0
      · rw [if_pos h0]
        intro hcon
        have : (['0'] : List Char) = [] := congrArg String.toList hcon
        cases this
      · rw [if_neg h0]
        obtain ⟨c, rest, hgo, _⟩ :=
          pyHexGo_head 8 e.toNat (by omega) (by
            have hp : (16 : Nat) ^ 8 = 4294967296 := by norm_num
            omega)
        rw [hgo]
        intro hcon
        have : (c :: rest : List Char) = [] := congrArg String.toList hcon
        cases this
    have hshort : searchCODE (codepoint e).toList = none := by
      apply searchCODE_short
      rw [codepoint, pyHex]
      by_cases h0 : e.toNat = 0
      · rw [if_pos h0]; simp
      · rw [if_neg h0]
        have hp3 : (16 : Nat) ^ 3 = 4096 := by norm_num
        have := pyHexGo_length_le 8 e.toNat 3 (by omega)
        show (String.mk (pyHexGo 8 e.toNat)).toList.length ≤ 3
        simpa using this
    rw [emoji, trim_code, if_neg hsne, hshort]
    rfl

theorem emoji_codepoint_roundtrip_witness :
    (0x1000 ≤ ('🍂' : Char).toNat ∧
      emoji (some (codepoint '🍂')) = Except.ok (String.mk ['🍂'])) ∧
    (('©' : Char).toNat < 0x1000 ∧
      emoji (some (codepoint '©')) = Except.ok "") :=
  ⟨⟨by decide, (emoji_codepoint_roundtrip '🍂').1 (by decide)⟩,
   ⟨by decide, (emoji_codepoint_roundtrip '©').2 (by decide)⟩⟩

end BrandingBot

